import Mathlib

set_option maxRecDepth 100000

/-!
Verification of the fuel-route planning core (`core/services/fuel_plan.py`).

The planner (`min_cost_plan` and its helpers) works on exact rationals: every
quantity the Python code holds in a float (miles, gallons, dollars) is modelled
as a `ℚ`.  The geometric layer (`haversine_miles`, `cumulative_miles`,
`attach_route_miles`) involves transcendental functions and is modelled over
`ℝ`.  The polyline decoder is modelled over the character list of the input
string, returning `none` where the Python code raises `IndexError` by reading
past the end of the string.
-/

namespace FuelRoute

/-- Price carried by a plan node: a finite dollar amount for a real station, or
the synthetic terminal's `float("inf")`. -/
inductive EPrice where
  | fin (p : ℚ)
  | inf
deriving DecidableEq, Repr

/-- The float comparison `x < y` on node prices (`float(nodes[k]["price"]) <
here_price`): finite values compare as rationals, any finite value is below
`inf`, and `inf` is below nothing. -/
def EPrice.blt : EPrice → EPrice → Bool
  | .fin a, .fin b => a < b
  | .fin _, .inf => true
  | .inf, _ => false

/-- The finite value of a node price, used when cost is accrued
(`cost = buy_gal * here_price`).  In every run the node whose price is read
here is one of the first `len(nodes) - 1` nodes, and the terminal (the only
`inf`-priced node produced by the pipeline) is last, so the value assigned to
`inf` is immaterial; we use `0`. -/
def EPrice.val : EPrice → ℚ
  | .fin p => p
  | .inf => 0

/-- A fuel station row (`FuelStop`) as the planner sees it: the fields copied
into plan entries plus the price.  Database decimals/floats are modelled as
rationals. -/
structure Station where
  id : ℤ
  name : String
  city : String
  state : String
  lat : ℚ
  lon : ℚ
  price : ℚ
deriving DecidableEq, Repr

/-- A node of the planning scan: the dicts `{"fs": ..., "route_miles": ...,
"price": ...}` fed to `min_cost_plan`, with `fs = none` for the synthetic
terminal node. -/
structure NodeD where
  fs : Option Station
  route_miles : ℚ
  price : EPrice
deriving DecidableEq, Repr

/-- One entry of the returned plan (`plan.append({...})`). -/
structure PlanEntry where
  id : ℤ
  name : String
  city : String
  state : String
  lat : ℚ
  lon : ℚ
  price : ℚ
  route_miles : ℚ
  gallons_bought : ℚ
  cost : ℚ
deriving DecidableEq, Repr

/-- The success payload of `min_cost_plan`. -/
structure PlanResult where
  stops : List PlanEntry
  total_cost : ℚ
  tank_gallons_capacity : ℚ
deriving DecidableEq, Repr

/-- The failure payload of `min_cost_plan`
(`{"error": "NO_FEASIBLE_PLAN", "gap_miles": ...}`). -/
structure PlanError where
  error : String
  gap_miles : ℚ
deriving DecidableEq, Repr

/-- Python's `round(x, 3)`.  Ties (exact multiples of 1/2000) round half-up
here where CPython rounds half-to-even on the binary float; no claim below
depends on a tie. -/
def round3 (q : ℚ) : ℚ := (round (q * 1000) : ℚ) / 1000

/-- Python's `round(x, 4)`, with the same tie caveat as `round3`. -/
def round4 (q : ℚ) : ℚ := (round (q * 10000) : ℚ) / 10000

/-- The epsilon `1e-6` used by the feasibility check and the plan-entry
threshold. -/
def eps : ℚ := 1 / 1000000

/-- Stable insertion of `x` into a list sorted by `key`: `x` goes before the
first element whose key is not smaller, hence after nothing equal that
preceded it and before everything equal that followed it. -/
def insertByKey {α β : Type} [LinearOrder β] (key : α → β) (x : α) :
    List α → List α
  | [] => [x]
  | y :: ys => if key x ≤ key y then x :: y :: ys else y :: insertByKey key x ys

/-- Stable sort by `key`, modelling Python's stable `list.sort(key=...)`. -/
def sortByKey {α β : Type} [LinearOrder β] (key : α → β) : List α → List α
  | [] => []
  | x :: xs => insertByKey key x (sortByKey key xs)

/-- The lookahead of the scan (`for k in range(i + 1, len(nodes))`): walk the
nodes after the current one, stop as soon as a node lies farther than
`max_range_miles`, and return the position of the first strictly cheaper node
found; if none, the fallback target `min(total_miles, here_mile +
max_range_miles)`. -/
def findTarget (here_mile : ℚ) (here_price : EPrice) (mr total : ℚ) :
    List NodeD → ℚ
  | [] => min total (here_mile + mr)
  | n :: rest =>
    if mr < n.route_miles - here_mile then min total (here_mile + mr)
    else if n.price.blt here_price then n.route_miles
    else findTarget here_mile here_price mr total rest

/-- The feasibility loop (`for i in range(len(nodes) - 1)`): the gap of the
first consecutive pair exceeding `max_range_miles + 1e-6`, if any. -/
def firstBadGap (mr : ℚ) : List NodeD → Option ℚ
  | a :: b :: rest =>
    if mr + eps < b.route_miles - a.route_miles then
      some (b.route_miles - a.route_miles)
    else firstBadGap mr (b :: rest)
  | _ => none

/-- Build a plan entry from the current station (`plan.append({...})`):
station fields verbatim, `route_miles` rounded to 3 decimals,
`gallons_bought` and `cost` to 4. -/
def mkEntry (s : Station) (here_mile buy cost : ℚ) : PlanEntry :=
  { id := s.id, name := s.name, city := s.city, state := s.state,
    lat := s.lat, lon := s.lon, price := s.price,
    route_miles := round3 here_mile, gallons_bought := round4 buy,
    cost := round4 cost }

/-- The greedy forward scan of `min_cost_plan` (`for i in range(len(nodes) -
1)`), processing each node but the last: compute the lookahead target, buy
`max(0, min(tank, need) - fuel)` gallons, accrue the cost, burn fuel to the
next node, and record a plan entry when the node is a real station and more
than `1e-6` gallons were bought.  Returns the accumulated `total_cost` and the
plan entries in scan order. -/
def scanAux (mpg mr total tank : ℚ) (fuel tc : ℚ) :
    List NodeD → ℚ × List PlanEntry
  | [] => (tc, [])
  | [_] => (tc, [])
  | here :: next :: rest =>
    let here_mile := here.route_miles
    let target := findTarget here_mile here.price mr total (next :: rest)
    let need := (target - here_mile) / mpg
    let buy := max 0 (min tank need - fuel)
    let cost := buy * here.price.val
    let fuel1 := fuel + buy - (next.route_miles - here_mile) / mpg
    let tail := scanAux mpg mr total tank fuel1 (tc + cost) (next :: rest)
    match here.fs with
    | some s =>
      if eps < buy then (tail.1, mkEntry s here_mile buy cost :: tail.2)
      else tail
    | none => tail

/-- The synthetic terminal node appended at `total_miles` with infinite
price. -/
def terminalNode (total : ℚ) : NodeD :=
  { fs := none, route_miles := total, price := .inf }

/-- Node-list construction of `min_cost_plan`: keep the input nodes with
`route_miles <= total_miles`, append the terminal node, and stable-sort by
`route_miles`. -/
def nodesOf (stations : List NodeD) (total : ℚ) : List NodeD :=
  sortByKey (fun n => n.route_miles)
    (stations.filter (fun n => n.route_miles ≤ total) ++ [terminalNode total])

/-- `min_cost_plan(stations, total_miles, mpg, max_range_miles)`: build the
node list, fail with `NO_FEASIBLE_PLAN` on the first oversized gap, otherwise
run the greedy scan and return the plan with rounded totals. -/
def min_cost_plan (stations : List NodeD) (total mpg mr : ℚ) :
    Option PlanResult × Option PlanError :=
  let tank := mr / mpg
  let nodes := nodesOf stations total
  match firstBadGap mr nodes with
  | some g => (none, some { error := "NO_FEASIBLE_PLAN", gap_miles := g })
  | none =>
    let r := scanAux mpg mr total tank 0 0 nodes
    (some { stops := r.2, total_cost := round4 r.1,
            tank_gallons_capacity := round4 tank }, none)

/-- The lookahead target as the specification words it: the position of "the
first subsequent node within `max_range_miles` whose price is strictly lower",
or, if none, `min(total_miles, here + max_range_miles)`.  Written with
`List.find?` to be compared against the source's loop `findTarget`. -/
def specTarget (here_mile : ℚ) (here_price : EPrice) (mr total : ℚ)
    (rest : List NodeD) : ℚ :=
  match rest.find?
      (fun n => decide (n.route_miles - here_mile ≤ mr) && n.price.blt here_price) with
  | some n => n.route_miles
  | none => min total (here_mile + mr)

/-- The fuel-level invariant of the scan, step by step: after the purchase at
each processed node the fuel level is at most the tank capacity, and after
burning the segment to the next node it is nonnegative.  The per-step
quantities are exactly those of `scanAux`. -/
def fuelInv (mpg mr total tank : ℚ) : ℚ → List NodeD → Prop
  | _, [] => True
  | _, [_] => True
  | fuel, here :: next :: rest =>
    let here_mile := here.route_miles
    let target := findTarget here_mile here.price mr total (next :: rest)
    let need := (target - here_mile) / mpg
    let buy := max 0 (min tank need - fuel)
    let fuel1 := fuel + buy
    let fuel2 := fuel1 - (next.route_miles - here_mile) / mpg
    fuel1 ≤ tank ∧ 0 ≤ fuel2 ∧ fuelInv mpg mr total tank fuel2 (next :: rest)

/-- Instrumentation of the scan: for each processed node, the cost accrued
there (`buy_gal * here_price`) and whether a plan entry was recorded for it
(real station and more than `1e-6` gallons bought).  The per-step quantities
are exactly those of `scanAux`. -/
def scanCostLog (mpg mr total tank : ℚ) (fuel : ℚ) :
    List NodeD → List (ℚ × Bool)
  | [] => []
  | [_] => []
  | here :: next :: rest =>
    let here_mile := here.route_miles
    let target := findTarget here_mile here.price mr total (next :: rest)
    let need := (target - here_mile) / mpg
    let buy := max 0 (min tank need - fuel)
    let cost := buy * here.price.val
    let fuel1 := fuel + buy - (next.route_miles - here_mile) / mpg
    (cost, here.fs.isSome && decide (eps < buy)) ::
      scanCostLog mpg mr total tank fuel1 (next :: rest)

/-! ## Geometry (`haversine_miles`, `cumulative_miles`, `attach_route_miles`)

The geometric layer computes with transcendental functions, so it is modelled
over `ℝ`. -/

/-- `math.radians(x)`. -/
noncomputable def radians (x : ℝ) : ℝ := x * Real.pi / 180

/-- `haversine_miles(lat1, lon1, lat2, lon2)`: great-circle distance with
Earth radius 3958.7613 statute miles. -/
noncomputable def haversine_miles (lat1 lon1 lat2 lon2 : ℝ) : ℝ :=
  let R : ℝ := 3958.7613
  let phi1 := radians lat1
  let phi2 := radians lat2
  let dphi := radians (lat2 - lat1)
  let dl := radians (lon2 - lon1)
  let a := Real.sin (dphi / 2) ^ 2 +
    Real.cos phi1 * Real.cos phi2 * Real.sin (dl / 2) ^ 2
  2 * R * Real.arcsin (Real.sqrt a)

/-- The loop of `cumulative_miles`: running cumulative sums, one entry per
remaining point, each adding the haversine distance from the previous
point. -/
noncomputable def cumAux (prev : ℝ × ℝ) (acc : ℝ) : List (ℝ × ℝ) → List ℝ
  | [] => []
  | p :: rest =>
    (acc + haversine_miles prev.1 prev.2 p.1 p.2) ::
      cumAux p (acc + haversine_miles prev.1 prev.2 p.1 p.2) rest

/-- `cumulative_miles(poly)`: starts from the literal `[0.0]` (so the empty
input also yields `[0.0]`) and appends one running sum per further point. -/
noncomputable def cumulative_miles : List (ℝ × ℝ) → List ℝ
  | [] => [0]
  | p :: rest => 0 :: cumAux p 0 rest

/-- Great-circle distance from a station to a route vertex
(`haversine_miles(fs.lat, fs.lon, lat, lon)`). -/
noncomputable def stationDist (s : Station) (p : ℝ × ℝ) : ℝ :=
  haversine_miles (s.lat : ℝ) (s.lon : ℝ) p.1 p.2

/-- One iteration of the vertex scan of `attach_route_miles`: keep the
current best `(best_i, best_d)` unless this vertex strictly improves the
distance (`if d < best_d`). -/
noncomputable def bestStep (s : Station) (acc : ℕ × ℝ) (ip : ℕ × (ℝ × ℝ)) :
    ℕ × ℝ :=
  if stationDist s ip.2 < acc.2 then (ip.1, stationDist s ip.2) else acc

/-- The vertex scan of `attach_route_miles` over an index-annotated suffix of
the route, from an arbitrary starting best. -/
noncomputable def bestFold (s : Station) (k : ℕ) (poly : List (ℝ × ℝ))
    (acc : ℕ × ℝ) : ℕ × ℝ :=
  (poly.enumFrom k).foldl (bestStep s) acc

/-- The vertex scan of `attach_route_miles`: starting from `best_i = 0`,
`best_d = 1e18`, keep the first vertex index strictly improving the best
distance so far. -/
noncomputable def bestVertex (s : Station) (poly : List (ℝ × ℝ)) : ℕ × ℝ :=
  poly.enum.foldl (bestStep s) (0, (10 : ℝ) ^ 18)

/-- A candidate annotated with its route position (`{"fs": fs, "route_miles":
cum[best_i], "offroute_miles": best_d}`). -/
structure Enriched where
  fs : Station
  route_miles : ℝ
  offroute_miles : ℝ

/-- Annotation of one station: `route_miles = cum[best_i]`, `offroute_miles =
best_d`.  `cum[best_i]` is a checked index in Python; with a non-empty route
and `len(cum) == len(poly)` it is always in bounds, so the `getD` default is
never taken. -/
noncomputable def annotate (poly : List (ℝ × ℝ)) (cum : List ℝ) (s : Station) :
    Enriched :=
  let bd := bestVertex s poly
  { fs := s, route_miles := cum.getD bd.1 0, offroute_miles := bd.2 }

/-- `attach_route_miles(stops, poly, cum)`: annotate every station and
stable-sort the result ascending by `route_miles`. -/
noncomputable def attach_route_miles (stops : List Station)
    (poly : List (ℝ × ℝ)) (cum : List ℝ) : List Enriched :=
  sortByKey (fun e => e.route_miles) (stops.map (annotate poly cum))

/-! ## Polyline decoding (`decode_polyline`)

The decoder walks the character stream one character at a time.  Python's
nested `while` loops are flattened into one structural recursion over the
remaining characters, with the loop state (`phase` = currently decoding the
longitude chunk, `shift`, `result`, running `lat`/`lng`) carried as
arguments.  Reading past the end of the string raises `IndexError` in Python;
here every such read returns `none`. -/

/-- Zig-zag decoding of an accumulated chunk:
`~(result >> 1) if (result & 1) else (result >> 1)`, with Python's `~x = -x-1`
on unbounded integers. -/
def unzig (result : ℕ) : ℤ :=
  if result % 2 = 1 then -((result >>> 1 : ℕ) : ℤ) - 1 else ((result >>> 1 : ℕ) : ℤ)

/-- One step of the decoding loops.  `b = ord(c) - 63` can be negative for
arbitrary input; Python's `b & 0x1f` on an unbounded integer is two's
complement, i.e. the nonnegative `b % 32`.  A character with `b >= 0x20`
continues the current chunk; otherwise the chunk is complete and feeds the
latitude (`phase = false`) or the longitude (`phase = true`), the latter also
emitting the point `(lat / 1e5, lng / 1e5)`.  An empty stream in mid-chunk
(or between the two chunks of a point) is Python's `IndexError`, here
`none`. -/
def decodeAux (phase : Bool) (shift result : ℕ) (lat lng : ℤ) :
    List Char → Option (List (ℚ × ℚ))
  | [] => none
  | c :: rest =>
    let b : ℤ := (c.toNat : ℤ) - 63
    let result1 := result ||| ((b % 32).toNat <<< shift)
    if 32 ≤ b then decodeAux phase (shift + 5) result1 lat lng rest
    else if phase = false then
      decodeAux true 0 0 (lat + unzig result1) lng rest
    else
      let lng1 := lng + unzig result1
      let pt : ℚ × ℚ := ((lat : ℚ) / 100000, (lng1 : ℚ) / 100000)
      match rest with
      | [] => some [pt]
      | _ :: _ => (decodeAux false 0 0 lat lng1 rest).map (fun tl => pt :: tl)

/-- `decode_polyline(polyline_str)`: the empty string decodes to no points;
otherwise run the decoding loop from index 0 with `lat = lng = 0`. -/
def decode_polyline (s : String) : Option (List (ℚ × ℚ)) :=
  match s.toList with
  | [] => some []
  | c :: rest => decodeAux false 0 0 0 0 (c :: rest)

/-! ## Concrete instances used in the claims' witnesses and counterexamples -/

/-- A sample station with the given id and price; the fields not used by the
planner's arithmetic are fixed placeholders. -/
def sampleStation (i : ℤ) (p : ℚ) : Station :=
  { id := i, name := "station", city := "city", state := "ST",
    lat := 0, lon := 0, price := p }

/-- A sample input node: a real station at the given route position and
price. -/
def sampleNode (i : ℤ) (rm p : ℚ) : NodeD :=
  { fs := some (sampleStation i p), route_miles := rm, price := .fin p }

/-! ## Lemmas about the stable sort -/

theorem insertByKey_perm {α β : Type} [LinearOrder β] (key : α → β) (x : α) :
    ∀ l : List α, (insertByKey key x l).Perm (x :: l)
  | [] => List.Perm.refl _
  | y :: ys => by
    rw [insertByKey]
    split
    · exact List.Perm.refl _
    · exact ((insertByKey_perm key x ys).cons y).trans (List.Perm.swap x y ys)

theorem sortByKey_perm {α β : Type} [LinearOrder β] (key : α → β) :
    ∀ l : List α, (sortByKey key l).Perm l
  | [] => List.Perm.refl _
  | x :: xs => (insertByKey_perm key x _).trans ((sortByKey_perm key xs).cons x)

theorem mem_sortByKey {α β : Type} [LinearOrder β] {key : α → β} {l : List α}
    {a : α} : a ∈ sortByKey key l ↔ a ∈ l :=
  (sortByKey_perm key l).mem_iff

theorem insertByKey_pairwise {α β : Type} [LinearOrder β] {key : α → β} (x : α)
    {l : List α} (h : l.Pairwise (fun a b => key a ≤ key b)) :
    (insertByKey key x l).Pairwise (fun a b => key a ≤ key b) := by
  induction l with
  | nil => simp [insertByKey]
  | cons y ys ih =>
    rw [insertByKey]
    split
    · refine h.cons ?_
      intro b hb
      rcases List.mem_cons.1 hb with hb | hb
      · exact hb ▸ ‹key x ≤ key y›
      · exact le_trans ‹key x ≤ key y› (List.rel_of_pairwise_cons h hb)
    · refine (ih h.tail).cons ?_
      intro b hb
      rcases List.mem_cons.1 ((insertByKey_perm key x ys).mem_iff.1 hb) with hb | hb
      · exact hb ▸ le_of_not_le ‹¬ key x ≤ key y›
      · exact List.rel_of_pairwise_cons h hb

theorem sortByKey_pairwise {α β : Type} [LinearOrder β] (key : α → β) :
    ∀ l : List α, (sortByKey key l).Pairwise (fun a b => key a ≤ key b)
  | [] => List.Pairwise.nil
  | x :: xs => insertByKey_pairwise x (sortByKey_pairwise key xs)

theorem sortByKey_eq_of_sorted {α β : Type} [LinearOrder β] {key : α → β} :
    ∀ {l : List α}, l.Pairwise (fun a b => key a ≤ key b) → sortByKey key l = l
  | [], _ => rfl
  | x :: xs, h => by
    rw [sortByKey, sortByKey_eq_of_sorted (List.pairwise_cons.1 h).2]
    cases xs with
    | nil => rfl
    | cons y ys =>
      rw [insertByKey, if_pos ((List.pairwise_cons.1 h).1 y (List.mem_cons_self y ys))]

theorem insertByKey_filter {α β : Type} [LinearOrder β] (key : α → β) (x : α)
    (v : β) : ∀ l : List α,
    (insertByKey key x l).filter (fun a => decide (key a = v))
      = if key x = v then x :: l.filter (fun a => decide (key a = v))
        else l.filter (fun a => decide (key a = v))
  | [] => by
    rw [insertByKey]
    by_cases hx : key x = v <;> simp [hx]
  | y :: ys => by
    rw [insertByKey]
    split
    · by_cases hx : key x = v <;> simp [List.filter_cons, hx]
    · have hyx : key y < key x := lt_of_not_le ‹¬ key x ≤ key y›
      rw [List.filter_cons, List.filter_cons, insertByKey_filter key x v ys]
      by_cases hx : key x = v
      · have hy : ¬ (key y = v) := fun hy =>
          absurd ((hy.trans hx.symm).ge) (not_le.2 hyx)
        simp [hx, hy]
      · by_cases hy : key y = v <;> simp [hx, hy]

theorem sortByKey_filter {α β : Type} [LinearOrder β] (key : α → β) (v : β) :
    ∀ l : List α,
    (sortByKey key l).filter (fun a => decide (key a = v))
      = l.filter (fun a => decide (key a = v))
  | [] => rfl
  | x :: xs => by
    rw [sortByKey, insertByKey_filter, sortByKey_filter key v xs, List.filter_cons]
    by_cases hx : key x = v <;> simp [hx]

/-! ## Lemmas about the feasibility check -/

theorem firstBadGap_eq_none_iff (mr : ℚ) :
    ∀ l : List NodeD, firstBadGap mr l = none ↔
      l.Chain' (fun a b => b.route_miles - a.route_miles ≤ mr + eps)
  | [] => by simp [firstBadGap]
  | [a] => by simp [firstBadGap]
  | a :: b :: rest => by
    rw [firstBadGap]
    split
    · simp only [List.chain'_cons]
      constructor
      · intro h
        exact absurd h (by simp)
      · intro h
        exact absurd h.1 (not_le.2 ‹_›)
    · rw [firstBadGap_eq_none_iff mr (b :: rest), List.chain'_cons]
      exact ⟨fun h => ⟨not_lt.1 ‹_›, h⟩, fun h => h.2⟩

theorem firstBadGap_some_spec (mr : ℚ) :
    ∀ (l : List NodeD) (g : ℚ), firstBadGap mr l = some g →
      mr + eps < g ∧ ∃ i a b, l[i]? = some a ∧ l[i+1]? = some b ∧
        g = b.route_miles - a.route_miles
  | [], _ => by simp [firstBadGap]
  | [_], _ => by simp [firstBadGap]
  | a :: b :: rest, g => by
    rw [firstBadGap]
    split
    · intro h
      obtain rfl : b.route_miles - a.route_miles = g := by
        injection h
      exact ⟨‹_›, 0, a, b, by simp, by simp, rfl⟩
    · intro h
      obtain ⟨hg, i, a', b', h1, h2, h3⟩ := firstBadGap_some_spec mr (b :: rest) g h
      exact ⟨hg, i + 1, a', b', by simpa using h1, by simpa using h2, h3⟩

/-- C1: if any consecutive pair of the sorted node list (real candidates plus
the synthetic terminal) has a gap exceeding `max_range_miles + 1e-6`, then
`min_cost_plan` returns no plan and the failure `NO_FEASIBLE_PLAN` carrying
the offending gap, before any cost computation. -/
theorem feasibility_gap_fails (stations : List NodeD) (total mpg mr : ℚ)
    (h : ¬ (nodesOf stations total).Chain'
        (fun a b => b.route_miles - a.route_miles ≤ mr + eps)) :
    ∃ g, min_cost_plan stations total mpg mr
        = (none, some { error := "NO_FEASIBLE_PLAN", gap_miles := g }) ∧
      mr + eps < g ∧
      ∃ i a b, (nodesOf stations total)[i]? = some a ∧
        (nodesOf stations total)[i+1]? = some b ∧
        g = b.route_miles - a.route_miles := by
  cases hbg : firstBadGap mr (nodesOf stations total) with
  | none => exact absurd ((firstBadGap_eq_none_iff mr _).1 hbg) h
  | some g =>
    obtain ⟨hg, hex⟩ := firstBadGap_some_spec mr _ g hbg
    refine ⟨g, ?_, hg, hex⟩
    simp only [min_cost_plan]
    rw [hbg]

/-- Witness for C1: the specification's own instance, stations at route-miles
0, 100 and 650 with `max_range_miles = 500`; the plan fails with gap 550. -/
theorem feasibility_gap_fails_witness :
    (¬ (nodesOf [sampleNode 1 0 3, sampleNode 2 100 3, sampleNode 3 650 3] 650).Chain'
        (fun a b => b.route_miles - a.route_miles ≤ 500 + eps)) ∧
    ∃ g, min_cost_plan [sampleNode 1 0 3, sampleNode 2 100 3, sampleNode 3 650 3]
          650 10 500
        = (none, some { error := "NO_FEASIBLE_PLAN", gap_miles := g }) ∧
      500 + eps < g ∧
      ∃ i a b,
        (nodesOf [sampleNode 1 0 3, sampleNode 2 100 3, sampleNode 3 650 3] 650)[i]?
          = some a ∧
        (nodesOf [sampleNode 1 0 3, sampleNode 2 100 3, sampleNode 3 650 3] 650)[i+1]?
          = some b ∧
        g = b.route_miles - a.route_miles := by
  have hbg : firstBadGap 500
      (nodesOf [sampleNode 1 0 3, sampleNode 2 100 3, sampleNode 3 650 3] 650)
      = some 550 := by
    with_unfolding_all rfl
  have hnc : ¬ (nodesOf [sampleNode 1 0 3, sampleNode 2 100 3, sampleNode 3 650 3]
      650).Chain' (fun a b => b.route_miles - a.route_miles ≤ 500 + eps) := by
    intro hc
    rw [← firstBadGap_eq_none_iff, hbg] at hc
    cases hc
  exact ⟨hnc, feasibility_gap_fails _ _ _ _ hnc⟩

/-! ## Lemmas about the lookahead and the scan entries -/

theorem findTarget_eq_specTarget (here_mile : ℚ) (here_price : EPrice)
    (mr total : ℚ) :
    ∀ rest : List NodeD,
      rest.Pairwise (fun a b => a.route_miles ≤ b.route_miles) →
      findTarget here_mile here_price mr total rest
        = specTarget here_mile here_price mr total rest
  | [], _ => rfl
  | n :: rest, h => by
    rw [findTarget, specTarget]
    by_cases hr : mr < n.route_miles - here_mile
    · rw [if_pos hr]
      have hfind : (n :: rest).find?
          (fun m => decide (m.route_miles - here_mile ≤ mr) && m.price.blt here_price)
          = none := by
        rw [List.find?_eq_none]
        intro m hm
        have hnm : n.route_miles ≤ m.route_miles := by
          rcases List.mem_cons.1 hm with rfl | hm
          · exact le_refl _
          · exact List.rel_of_pairwise_cons h hm
        simp only [Bool.and_eq_true, decide_eq_true_eq, not_and]
        intro hle
        exact absurd hle (not_le.2 (by linarith))
      rw [hfind]
    · rw [if_neg hr]
      cases hb : n.price.blt here_price with
      | true =>
        rw [List.find?_cons_of_pos _ (by simp [not_lt.1 hr, hb])]
        simp [hb]
      | false =>
        rw [List.find?_cons_of_neg _ (by simp [hb])]
        have ih := findTarget_eq_specTarget here_mile here_price mr total rest
          (List.pairwise_cons.1 h).2
        rw [specTarget] at ih
        simpa [hb] using ih

theorem mem_nodesOf {stations : List NodeD} {total : ℚ} {n : NodeD}
    (h : n ∈ nodesOf stations total) : n ∈ stations ∨ n = terminalNode total := by
  rcases List.mem_append.1 (mem_sortByKey.1 h) with h | h
  · exact Or.inl (List.mem_of_mem_filter h)
  · exact Or.inr (List.mem_singleton.1 h)

theorem scan_entries (mpg mr total tank : ℚ) :
    ∀ (nl : List NodeD) (fuel tc : ℚ) (e : PlanEntry),
      e ∈ (scanAux mpg mr total tank fuel tc nl).2 →
      ∃ n ∈ nl, ∃ s : Station, n.fs = some s ∧ e.id = s.id ∧ e.name = s.name ∧
        e.city = s.city ∧ e.state = s.state ∧ e.lat = s.lat ∧ e.lon = s.lon ∧
        e.price = s.price
  | [], _, _, _, h => absurd h (by simp [scanAux])
  | [x], _, _, _, h => absurd h (by simp [scanAux])
  | here :: next :: rest, fuel, tc, e, h => by
    rw [scanAux] at h
    cases hfs : here.fs with
    | none =>
      simp only [hfs] at h
      obtain ⟨n, hn, hrest⟩ := scan_entries mpg mr total tank (next :: rest) _ _ e h
      exact ⟨n, List.mem_cons_of_mem _ hn, hrest⟩
    | some s =>
      simp only [hfs] at h
      split at h
      · rcases List.mem_cons.1 h with rfl | h
        · exact ⟨here, List.mem_cons_self _ _, s, hfs, rfl, rfl, rfl, rfl, rfl, rfl, rfl⟩
        · obtain ⟨n, hn, hrest⟩ := scan_entries mpg mr total tank (next :: rest) _ _ e h
          exact ⟨n, List.mem_cons_of_mem _ hn, hrest⟩
      · obtain ⟨n, hn, hrest⟩ := scan_entries mpg mr total tank (next :: rest) _ _ e h
        exact ⟨n, List.mem_cons_of_mem _ hn, hrest⟩

/-- C3: the lookahead target of the purchase formula is, as the specification
words it, the first subsequent node within `max_range_miles` whose price is
strictly lower (else `min(total, here + max_range)`) — on the sorted node
lists the scan runs on; and on the specification's instance (start station at
$4.00/mile 0, cheaper $3.00 station at mile 200, `mpg = 10`,
`max_range_miles = 500`) the plan buys exactly 20 gallons at the start node,
not the 50-gallon full tank. -/
theorem purchase_targets_cheaper_station :
    (∀ (here_mile total mr : ℚ) (here_price : EPrice) (rest : List NodeD),
      rest.Pairwise (fun a b => a.route_miles ≤ b.route_miles) →
      findTarget here_mile here_price mr total rest
        = specTarget here_mile here_price mr total rest) ∧
    ((min_cost_plan [sampleNode 1 0 4, sampleNode 2 200 3] 500 10 500).1.map
        (fun r => (r.stops.map (fun e => (e.id, e.gallons_bought)),
          r.tank_gallons_capacity))
      = some ([(1, 20), (2, 30)], 50)) :=
  ⟨fun here_mile total mr here_price rest h =>
      findTarget_eq_specTarget here_mile here_price mr total rest h,
    by with_unfolding_all rfl⟩

/-- Witness for C3: the general conjunct applied to the sorted lookahead list
of the concrete instance. -/
theorem purchase_targets_cheaper_station_witness :
    ([sampleNode 2 200 3, terminalNode 500].Pairwise
      (fun a b => a.route_miles ≤ b.route_miles)) ∧
    findTarget 0 (EPrice.fin 4) 500 500 [sampleNode 2 200 3, terminalNode 500]
      = specTarget 0 (EPrice.fin 4) 500 500 [sampleNode 2 200 3, terminalNode 500] :=
  ⟨by simp [sampleNode, terminalNode]; norm_num,
    purchase_targets_cheaper_station.1 0 500 500 (EPrice.fin 4)
      [sampleNode 2 200 3, terminalNode 500]
      (by simp [sampleNode, terminalNode]; norm_num)⟩

/-- C4: every entry of the returned stops list carries a real input station's
fields — in particular its finite rational price — and never corresponds to
the synthetic terminal node (whose `fs` is `none`). -/
theorem no_terminal_stop (stations : List NodeD) (total mpg mr : ℚ)
    (res : PlanResult) (h : (min_cost_plan stations total mpg mr).1 = some res) :
    ∀ e ∈ res.stops, ∃ n ∈ stations, ∃ s : Station, n.fs = some s ∧
      e.id = s.id ∧ e.name = s.name ∧ e.city = s.city ∧ e.state = s.state ∧
      e.lat = s.lat ∧ e.lon = s.lon ∧ e.price = s.price := by
  intro e he
  have hstops : res.stops
      = (scanAux mpg mr total (mr / mpg) 0 0 (nodesOf stations total)).2 := by
    simp only [min_cost_plan] at h
    cases hbg : firstBadGap mr (nodesOf stations total) with
    | some g =>
      rw [hbg] at h
      cases h
    | none =>
      rw [hbg] at h
      injection h with h
      rw [← h]
  rw [hstops] at he
  obtain ⟨n, hn, s, hfs, hfields⟩ :=
    scan_entries mpg mr total (mr / mpg) _ 0 0 e he
  rcases mem_nodesOf hn with hn' | rfl
  · exact ⟨n, hn', s, hfs, hfields⟩
  · simp [terminalNode] at hfs

/-- Witness for C4 at the concrete two-station instance. -/
theorem no_terminal_stop_witness :
    ∃ res, (min_cost_plan [sampleNode 1 0 4, sampleNode 2 200 3] 500 10 500).1
        = some res ∧
      ∀ e ∈ res.stops, ∃ n ∈ [sampleNode 1 0 4, sampleNode 2 200 3],
        ∃ s : Station, n.fs = some s ∧
          e.id = s.id ∧ e.name = s.name ∧ e.city = s.city ∧ e.state = s.state ∧
          e.lat = s.lat ∧ e.lon = s.lon ∧ e.price = s.price := by
  have hs : (min_cost_plan [sampleNode 1 0 4, sampleNode 2 200 3] 500 10 500).1.isSome
      = true := by
    with_unfolding_all rfl
  cases hres : (min_cost_plan [sampleNode 1 0 4, sampleNode 2 200 3] 500 10 500).1 with
  | none =>
    rw [hres] at hs
    cases hs
  | some res =>
    exact ⟨res, rfl, no_terminal_stop [sampleNode 1 0 4, sampleNode 2 200 3]
      500 10 500 res hres⟩

/-! ## The uniform-price total cost (C2) -/

theorem findTarget_of_no_cheaper (here_mile : ℚ) (here_price : EPrice)
    (mr total : ℚ) :
    ∀ rest : List NodeD, (∀ n ∈ rest, n.price.blt here_price = false) →
      findTarget here_mile here_price mr total rest = min total (here_mile + mr)
  | [], _ => rfl
  | n :: rest, h => by
    rw [findTarget]
    split
    · rfl
    · rw [h n (List.mem_cons_self n rest)]
      simp only [Bool.false_eq_true, if_false]
      exact findTarget_of_no_cheaper here_mile here_price mr total rest
        (fun m hm => h m (List.mem_cons_of_mem _ hm))

theorem scanAux_fst_cons (mpg mr total tank f tc : ℚ) (x y : NodeD)
    (rest : List NodeD) :
    (scanAux mpg mr total tank f tc (x :: y :: rest)).1
      = (scanAux mpg mr total tank
          (f + max 0 (min tank ((findTarget x.route_miles x.price mr total
              (y :: rest) - x.route_miles) / mpg) - f)
            - (y.route_miles - x.route_miles) / mpg)
          (tc + max 0 (min tank ((findTarget x.route_miles x.price mr total
              (y :: rest) - x.route_miles) / mpg) - f) * x.price.val)
          (y :: rest)).1 := by
  rw [scanAux]
  cases x.fs with
  | none => rfl
  | some s =>
    dsimp only
    split <;> rfl

theorem scan_uniform (p mpg mr total : ℚ) (hmpg : 0 < mpg) :
    ∀ (xs : List NodeD) (x : NodeD) (f tc : ℚ),
      (∀ n ∈ (x :: xs).dropLast, n.price = EPrice.fin p) →
      (∀ n ∈ x :: xs, n.price.blt (EPrice.fin p) = false) →
      (x :: xs).Chain' (fun a b => b.route_miles - a.route_miles ≤ mr) →
      (∀ n ∈ x :: xs, n.route_miles ≤ total) →
      (∀ z, (x :: xs).getLast? = some z → z.route_miles = total) →
      0 ≤ f →
      x.route_miles + f * mpg ≤ total →
      (scanAux mpg mr total (mr / mpg) f tc (x :: xs)).1
        = tc + p * ((total - x.route_miles) / mpg - f)
  | [], x, f, tc, _, _, _, _, hlast, hf, hcov => by
    have hx : x.route_miles = total := hlast x rfl
    have hf0 : f = 0 := by nlinarith
    rw [scanAux, hx, hf0]
    simp
  | y :: rest, x, f, tc, hdrop, hblt, hchain, hle, hlast, hf, hcov => by
    have hxp : x.price = EPrice.fin p := hdrop x (by
      rw [List.dropLast_cons₂]
      exact List.mem_cons_self _ _)
    have hT : findTarget x.route_miles x.price mr total (y :: rest)
        = min total (x.route_miles + mr) :=
      findTarget_of_no_cheaper _ _ _ _ _ (by
        intro n hn
        rw [hxp]
        exact hblt n (List.mem_cons_of_mem _ hn))
    -- closed form of the capped requirement
    have hA : min (mr / mpg) ((min total (x.route_miles + mr) - x.route_miles) / mpg)
        = min (total - x.route_miles) mr / mpg := by
      rw [← min_sub_sub_right, add_sub_cancel_left, min_div_div_right hmpg.le,
        min_comm mr, min_assoc, min_self]
    set m : ℚ := x.route_miles with hm
    set m2 : ℚ := y.route_miles with hm2
    set A : ℚ := min (total - m) mr / mpg with hAdef
    -- facts about the step
    have hgap : m2 - m ≤ mr := (List.chain'_cons.1 hchain).1
    have hm2le : m2 ≤ total := hle y (List.mem_cons_of_mem _ (List.mem_cons_self _ _))
    have hburn : (m2 - m) / mpg ≤ A := by
      rw [hAdef]
      exact (div_le_div_right hmpg).2 (le_min (by linarith) hgap)
    have hfuel1 : f + max 0 (A - f) = max f A := by
      rw [← max_add_add_left, add_zero, add_sub_cancel]
    have hf2 : (0 : ℚ) ≤ max f A - (m2 - m) / mpg := by
      have : (m2 - m) / mpg ≤ max f A := le_trans hburn (le_max_right f A)
      linarith
    have hcov2 : m2 + (max f A - (m2 - m) / mpg) * mpg ≤ total := by
      rw [sub_mul, div_mul_cancel₀ _ (ne_of_gt hmpg),
        max_mul_of_nonneg _ _ hmpg.le, hAdef, div_mul_cancel₀ _ (ne_of_gt hmpg)]
      rcases max_cases (f * mpg) (min (total - m) mr) with ⟨hmax, _⟩ | ⟨hmax, _⟩ <;>
        rw [hmax]
      · linarith
      · have := min_le_left (total - m) mr
        linarith
    have ih := scan_uniform p mpg mr total hmpg rest y
      (max f A - (m2 - m) / mpg)
      (tc + max 0 (A - f) * p)
      (by
        intro n hn
        exact hdrop n (by rw [List.dropLast_cons₂]; exact List.mem_cons_of_mem _ hn))
      (fun n hn => hblt n (List.mem_cons_of_mem _ hn))
      (List.chain'_cons.1 hchain).2
      (fun n hn => hle n (List.mem_cons_of_mem _ hn))
      (fun z hz => hlast z (by rwa [List.getLast?_cons_cons]))
      hf2 hcov2
    rw [scanAux_fst_cons, hT, hA, hxp]
    have hval : (EPrice.fin p).val = p := rfl
    rw [hval]
    have harg : f + max 0 (A - f) - (m2 - m) / mpg = max f A - (m2 - m) / mpg := by
      rw [hfuel1]
    rw [harg, ih]
    have hsplit : (total - m2) / mpg + (m2 - m) / mpg = (total - m) / mpg := by
      rw [div_add_div_same]
      ring_nf
    have hbuy : max 0 (A - f) = max f A - f := by
      rw [← hfuel1]
      ring
    rw [hbuy]
    linear_combination (p : ℚ) * hsplit

theorem nodesOf_eq_of_sorted {stations : List NodeD} {total : ℚ}
    (hsorted : stations.Pairwise (fun a b => a.route_miles ≤ b.route_miles))
    (hle : ∀ n ∈ stations, n.route_miles ≤ total) :
    nodesOf stations total = stations ++ [terminalNode total] := by
  rw [nodesOf, List.filter_eq_self.2 (fun n hn => decide_eq_true (hle n hn))]
  apply sortByKey_eq_of_sorted
  rw [List.pairwise_append]
  refine ⟨hsorted, List.pairwise_singleton _ _, ?_⟩
  intro a ha b hb
  rw [List.mem_singleton.1 hb]
  exact hle a ha

/-- C2: with every station priced $3.00 per gallon, stations sorted along the
route starting at mile 0, and every consecutive node gap within
`max_range_miles`, the returned `total_cost` is `(total_miles / mpg) * 3.00`
up to the final rounding — i.e. exactly `total_miles / mpg` gallons are
bought in aggregate over the scan. -/
theorem uniform_price_total_cost (stations : List NodeD) (total mpg mr : ℚ)
    (hmpg : 0 < mpg)
    (hsorted : stations.Pairwise (fun a b => a.route_miles ≤ b.route_miles))
    (hle : ∀ n ∈ stations, n.route_miles ≤ total)
    (hprice : ∀ n ∈ stations, n.price = EPrice.fin 3)
    (hfirst : ∀ x, stations.head? = some x → x.route_miles = 0)
    (hne : stations ≠ [])
    (hgap : (stations ++ [terminalNode total]).Chain'
      (fun a b => b.route_miles - a.route_miles ≤ mr)) :
    ∃ res, min_cost_plan stations total mpg mr = (some res, none) ∧
      res.total_cost = round4 (total / mpg * 3) := by
  have hnodes : nodesOf stations total = stations ++ [terminalNode total] :=
    nodesOf_eq_of_sorted hsorted hle
  have hchain : (nodesOf stations total).Chain'
      (fun a b => b.route_miles - a.route_miles ≤ mr + eps) := by
    rw [hnodes]
    exact hgap.imp (fun a b h => le_trans h (by norm_num [eps]))
  have hbg : firstBadGap mr (nodesOf stations total) = none :=
    (firstBadGap_eq_none_iff mr _).2 hchain
  obtain ⟨x, xs, hx⟩ := List.exists_cons_of_ne_nil hne
  have hx0 : x.route_miles = 0 := hfirst x (by rw [hx]; rfl)
  have htot : 0 ≤ total := by
    have hx' := hle x (by rw [hx]; exact List.mem_cons_self _ _)
    rw [hx0] at hx'
    exact hx'
  have hmemtot : ∀ n ∈ x :: (xs ++ [terminalNode total]),
      n ∈ stations ∨ n = terminalNode total := by
    intro n hn
    rw [← List.cons_append, ← hx] at hn
    rcases List.mem_append.1 hn with hn | hn
    · exact Or.inl hn
    · exact Or.inr (List.mem_singleton.1 hn)
  have hdl : (x :: (xs ++ [terminalNode total])).dropLast = stations := by
    rw [← List.cons_append, List.dropLast_concat, hx]
  have hscan := scan_uniform 3 mpg mr total hmpg (xs ++ [terminalNode total]) x 0 0
    (by
      intro n hn
      rw [hdl] at hn
      exact hprice n hn)
    (by
      intro n hn
      rcases hmemtot n hn with hn | rfl
      · rw [hprice n hn]
        simp [EPrice.blt]
      · rfl)
    (by
      rw [← List.cons_append, ← hx]
      exact hgap)
    (by
      intro n hn
      rcases hmemtot n hn with hn | rfl
      · exact hle n hn
      · exact le_refl _)
    (by
      intro z hz
      rw [← List.cons_append, List.getLast?_concat] at hz
      injection hz with hz
      rw [← hz]
      rfl)
    le_rfl
    (by
      rw [hx0, zero_mul, zero_add]
      exact htot)
  refine ⟨⟨(scanAux mpg mr total (mr / mpg) 0 0 (nodesOf stations total)).2,
    round4 (scanAux mpg mr total (mr / mpg) 0 0 (nodesOf stations total)).1,
    round4 (mr / mpg)⟩, ?_, ?_⟩
  · simp only [min_cost_plan]
    rw [hbg]
  · show round4 (scanAux mpg mr total (mr / mpg) 0 0 (nodesOf stations total)).1
      = round4 (total / mpg * 3)
    rw [hnodes, hx, List.cons_append, hscan, hx0]
    congr 1
    ring

/-- Witness for C2: stations priced $3.00 at miles 0 and 200, a 400-mile
route, `mpg = 10`, `max_range_miles = 500`; the plan exists and costs
`round4 (400 / 10 * 3) = 120`. -/
theorem uniform_price_total_cost_witness :
    ∃ res, min_cost_plan [sampleNode 1 0 3, sampleNode 2 200 3] 400 10 500
        = (some res, none) ∧ res.total_cost = round4 (400 / 10 * 3) := by
  apply uniform_price_total_cost
  · norm_num
  · norm_num [sampleNode, List.pairwise_cons]
  · intro n hn
    rcases List.mem_cons.1 hn with rfl | hn
    · norm_num [sampleNode]
    · rw [List.mem_singleton.1 hn]
      norm_num [sampleNode]
  · intro n hn
    rcases List.mem_cons.1 hn with rfl | hn
    · rfl
    · rw [List.mem_singleton.1 hn]
      rfl
  · intro z hz
    injection hz with hz
    rw [← hz]
    rfl
  · simp
  · refine List.chain'_cons.2 ⟨?_, List.chain'_cons.2 ⟨?_, List.chain'_singleton _⟩⟩ <;>
      norm_num [sampleNode, terminalNode]

/-! ## The fuel-level invariant (C9) -/

theorem nodesOf_pairwise (stations : List NodeD) (total : ℚ) :
    (nodesOf stations total).Pairwise
      (fun a b => a.route_miles ≤ b.route_miles) :=
  sortByKey_pairwise _ _

theorem nodesOf_mem_le {stations : List NodeD} {total : ℚ} {n : NodeD}
    (h : n ∈ nodesOf stations total) : n.route_miles ≤ total := by
  rcases List.mem_append.1 (mem_sortByKey.1 h) with h | h
  · exact of_decide_eq_true (List.mem_filter.1 h).2
  · rw [List.mem_singleton.1 h]
    exact le_refl total

theorem findTarget_cases (here_mile : ℚ) (here_price : EPrice) (mr total : ℚ) :
    ∀ rest : List NodeD,
      findTarget here_mile here_price mr total rest
          = min total (here_mile + mr) ∨
        ∃ n ∈ rest, findTarget here_mile here_price mr total rest = n.route_miles
  | [] => Or.inl rfl
  | n :: rest => by
    rw [findTarget]
    split
    · exact Or.inl rfl
    · split
      · exact Or.inr ⟨n, List.mem_cons_self _ _, rfl⟩
      · rcases findTarget_cases here_mile here_price mr total rest with h | ⟨m, hm, h⟩
        · exact Or.inl h
        · exact Or.inr ⟨m, List.mem_cons_of_mem _ hm, h⟩

theorem scan_fuelInv (mpg mr total : ℚ) (hmpg : 0 < mpg) :
    ∀ (nl : List NodeD) (f : ℚ),
      nl.Pairwise (fun a b => a.route_miles ≤ b.route_miles) →
      nl.Chain' (fun a b => b.route_miles - a.route_miles ≤ mr) →
      (∀ n ∈ nl, n.route_miles ≤ total) →
      0 ≤ f → f ≤ mr / mpg →
      fuelInv mpg mr total (mr / mpg) f nl
  | [], _, _, _, _, _, _ => trivial
  | [_], _, _, _, _, _, _ => trivial
  | x :: y :: rest, f, hpw, hchain, hle, hf0, hftank => by
    simp only [fuelInv]
    set T := findTarget x.route_miles x.price mr total (y :: rest) with hT
    have hyT : y.route_miles ≤ T := by
      rcases findTarget_cases x.route_miles x.price mr total (y :: rest)
        with h | ⟨n, hn, h⟩
      · rw [← hT] at h
        rw [h]
        refine le_min ?_ ?_
        · exact hle y (List.mem_cons_of_mem _ (List.mem_cons_self _ _))
        · have := (List.chain'_cons.1 hchain).1
          linarith
      · rw [← hT] at h
        rw [h]
        rcases List.mem_cons.1 hn with rfl | hn
        · exact le_refl _
        · exact List.rel_of_pairwise_cons (List.pairwise_cons.1 hpw).2 hn
    have hxy : x.route_miles ≤ y.route_miles :=
      List.rel_of_pairwise_cons hpw (List.mem_cons_self _ _)
    have hburnA : (y.route_miles - x.route_miles) / mpg
        ≤ min (mr / mpg) ((T - x.route_miles) / mpg) := by
      refine le_min ?_ ?_
      · exact (div_le_div_right hmpg).2 (List.chain'_cons.1 hchain).1
      · exact (div_le_div_right hmpg).2 (by linarith)
    have hfuel1 : f + max 0 (min (mr / mpg) ((T - x.route_miles) / mpg) - f)
        = max f (min (mr / mpg) ((T - x.route_miles) / mpg)) := by
      rw [← max_add_add_left, add_zero, add_sub_cancel]
    have hburn0 : 0 ≤ (y.route_miles - x.route_miles) / mpg :=
      div_nonneg (by linarith) hmpg.le
    refine ⟨?_, ?_, ?_⟩
    · rw [hfuel1]
      exact max_le hftank (min_le_left _ _)
    · rw [hfuel1]
      have := le_trans hburnA (le_max_right f _)
      linarith
    · apply scan_fuelInv mpg mr total hmpg (y :: rest)
      · exact (List.pairwise_cons.1 hpw).2
      · exact (List.chain'_cons.1 hchain).2
      · exact fun n hn => hle n (List.mem_cons_of_mem _ hn)
      · rw [hfuel1]
        have := le_trans hburnA (le_max_right f _)
        linarith
      · rw [hfuel1]
        have hmax : max f (min (mr / mpg) ((T - x.route_miles) / mpg)) ≤ mr / mpg :=
          max_le hftank (min_le_left _ _)
        linarith

/-- C9: whenever every consecutive node gap in the constructed node list is at
most `max_range_miles` (and the vehicle parameters are positive), the scan's
fuel level is at most `tankCapacity = max_range_miles / mpg` after every
purchase and nonnegative after every segment burn. -/
theorem fuel_level_invariant (stations : List NodeD) (total mpg mr : ℚ)
    (hmpg : 0 < mpg) (hmr : 0 ≤ mr)
    (hgap : (nodesOf stations total).Chain'
      (fun a b => b.route_miles - a.route_miles ≤ mr)) :
    fuelInv mpg mr total (mr / mpg) 0 (nodesOf stations total) :=
  scan_fuelInv mpg mr total hmpg _ 0 (nodesOf_pairwise stations total) hgap
    (fun _ hn => nodesOf_mem_le hn) le_rfl (div_nonneg hmr hmpg.le)

/-- Witness for C9 at the concrete two-station instance. -/
theorem fuel_level_invariant_witness :
    (0 : ℚ) < 10 ∧ (0 : ℚ) ≤ 500 ∧
    (nodesOf [sampleNode 1 0 3, sampleNode 2 200 3] 400).Chain'
      (fun a b => b.route_miles - a.route_miles ≤ 500) ∧
    fuelInv 10 500 400 (500 / 10) 0
      (nodesOf [sampleNode 1 0 3, sampleNode 2 200 3] 400) := by
  have hn : nodesOf [sampleNode 1 0 3, sampleNode 2 200 3] 400
      = [sampleNode 1 0 3, sampleNode 2 200 3, terminalNode 400] := by
    with_unfolding_all rfl
  have hchain : (nodesOf [sampleNode 1 0 3, sampleNode 2 200 3] 400).Chain'
      (fun a b => b.route_miles - a.route_miles ≤ 500) := by
    rw [hn]
    refine List.chain'_cons.2 ⟨?_, List.chain'_cons.2 ⟨?_, List.chain'_singleton _⟩⟩ <;>
      norm_num [sampleNode, terminalNode]
  exact ⟨by norm_num, by norm_num, hchain,
    fuel_level_invariant _ _ _ _ (by norm_num) (by norm_num) hchain⟩

/-! ## Decomposition of the total cost (C10) -/

theorem scanCostLog_total (mpg mr total tank : ℚ) :
    ∀ (nl : List NodeD) (f tc : ℚ),
      (scanAux mpg mr total tank f tc nl).1
        = tc + ((scanCostLog mpg mr total tank f nl).map Prod.fst).sum
  | [], f, tc => by simp [scanAux, scanCostLog]
  | [x], f, tc => by simp [scanAux, scanCostLog]
  | x :: y :: rest, f, tc => by
    rw [scanAux_fst_cons, scanCostLog_total mpg mr total tank (y :: rest) _ _]
    simp only [scanCostLog, List.map_cons, List.sum_cons]
    ring

theorem scan_stops_costs (mpg mr total tank : ℚ) :
    ∀ (nl : List NodeD) (f tc : ℚ),
      (scanAux mpg mr total tank f tc nl).2.map (fun e => e.cost)
        = ((scanCostLog mpg mr total tank f nl).filter (fun x => x.2)).map
            (fun x => round4 x.1)
  | [], f, tc => by simp [scanAux, scanCostLog]
  | [x], f, tc => by simp [scanAux, scanCostLog]
  | x :: y :: rest, f, tc => by
    have ih := scan_stops_costs mpg mr total tank (y :: rest)
      (f + max 0 (min tank ((findTarget x.route_miles x.price mr total
          (y :: rest) - x.route_miles) / mpg) - f)
        - (y.route_miles - x.route_miles) / mpg)
      (tc + max 0 (min tank ((findTarget x.route_miles x.price mr total
          (y :: rest) - x.route_miles) / mpg) - f) * x.price.val)
    simp only [scanAux, scanCostLog]
    cases hfs : x.fs with
    | none =>
      simp only [hfs, Option.isSome_none, Bool.false_and, List.filter_cons,
        Bool.false_eq_true, if_false]
      exact ih
    | some s =>
      simp only [hfs, Option.isSome_some, Bool.true_and, List.filter_cons]
      by_cases hb : eps < max 0 (min tank ((findTarget x.route_miles x.price mr
          total (y :: rest) - x.route_miles) / mpg) - f)
      · rw [if_pos hb]
        simp only [decide_eq_true hb, if_true, List.map_cons]
        rw [ih]
        rfl
      · rw [if_neg hb]
        simp only [decide_eq_false hb, Bool.false_eq_true, if_false]
        exact ih

theorem scanCostLog_nonneg (mpg mr total tank : ℚ) :
    ∀ (nl : List NodeD) (f : ℚ), (∀ n ∈ nl, 0 ≤ n.price.val) →
      ∀ x ∈ scanCostLog mpg mr total tank f nl, 0 ≤ x.1
  | [], _, _ => by simp [scanCostLog]
  | [_], _, _ => by simp [scanCostLog]
  | x :: y :: rest, f, hp => by
    intro z hz
    simp only [scanCostLog, List.mem_cons] at hz
    rcases hz with rfl | hz
    · exact mul_nonneg (le_max_left _ _) (hp x (List.mem_cons_self _ _))
    · exact scanCostLog_nonneg mpg mr total tank (y :: rest) _
        (fun n hn => hp n (List.mem_cons_of_mem _ hn)) z hz

theorem filter_sum_le {L : List (ℚ × Bool)} (h : ∀ x ∈ L, 0 ≤ x.1) :
    ((L.filter (fun x => x.2)).map Prod.fst).sum ≤ (L.map Prod.fst).sum := by
  induction L with
  | nil => simp
  | cons a L ih =>
    have ha := h a (List.mem_cons_self _ _)
    have ih' := ih (fun x hx => h x (List.mem_cons_of_mem _ hx))
    rw [List.filter_cons]
    cases hb : a.2
    · simp only [Bool.false_eq_true, if_false, List.map_cons, List.sum_cons]
      linarith
    · simp only [if_true, List.map_cons, List.sum_cons]
      linarith

theorem filter_sum_lt {L : List (ℚ × Bool)} (h : ∀ x ∈ L, 0 ≤ x.1)
    (hex : ∃ x ∈ L, x.2 = false ∧ 0 < x.1) :
    ((L.filter (fun x => x.2)).map Prod.fst).sum < (L.map Prod.fst).sum := by
  induction L with
  | nil => simp at hex
  | cons a L ih =>
    have ha := h a (List.mem_cons_self _ _)
    have hL : ∀ x ∈ L, 0 ≤ x.1 := fun x hx => h x (List.mem_cons_of_mem _ hx)
    rw [List.filter_cons]
    rcases hex with ⟨x, hxmem, hxf, hxpos⟩
    rcases List.mem_cons.1 hxmem with rfl | hxmem
    · rw [hxf]
      simp only [Bool.false_eq_true, if_false, List.map_cons, List.sum_cons]
      have := filter_sum_le hL
      linarith
    · cases hb : a.2
      · simp only [Bool.false_eq_true, if_false, List.map_cons, List.sum_cons]
        have := ih hL ⟨x, hxmem, hxf, hxpos⟩
        linarith
      · simp only [if_true, List.map_cons, List.sum_cons]
        have := ih hL ⟨x, hxmem, hxf, hxpos⟩
        linarith

/-- C10 (amended): the pre-rounding total cost is the sum of the per-node
costs `gallonsBought * price` over all scanned nodes; the stops list records
exactly the purchases of more than `1e-6` gallons at real stations, their
`cost` fields being those per-node costs rounded to 4 decimals; and with
nonnegative prices the pre-rounding total is at least the sum of the
pre-rounding (not the rounded) costs of the recorded purchases — strictly
greater when an unrecorded purchase has positive cost. -/
theorem total_cost_decomposition (stations : List NodeD) (total mpg mr : ℚ)
    (res : PlanResult)
    (h : (min_cost_plan stations total mpg mr).1 = some res) :
    res.total_cost
        = round4 (((scanCostLog mpg mr total (mr / mpg) 0
            (nodesOf stations total)).map Prod.fst).sum) ∧
    res.stops.map (fun e => e.cost)
        = ((scanCostLog mpg mr total (mr / mpg) 0
            (nodesOf stations total)).filter (fun x => x.2)).map
              (fun x => round4 x.1) ∧
    ((∀ n ∈ nodesOf stations total, 0 ≤ n.price.val) →
      (((scanCostLog mpg mr total (mr / mpg) 0
            (nodesOf stations total)).filter (fun x => x.2)).map Prod.fst).sum
        ≤ ((scanCostLog mpg mr total (mr / mpg) 0
            (nodesOf stations total)).map Prod.fst).sum) ∧
    ((∀ n ∈ nodesOf stations total, 0 ≤ n.price.val) →
      (∃ x ∈ scanCostLog mpg mr total (mr / mpg) 0 (nodesOf stations total),
        x.2 = false ∧ 0 < x.1) →
      (((scanCostLog mpg mr total (mr / mpg) 0
            (nodesOf stations total)).filter (fun x => x.2)).map Prod.fst).sum
        < ((scanCostLog mpg mr total (mr / mpg) 0
            (nodesOf stations total)).map Prod.fst).sum) := by
  have hres : res = ⟨(scanAux mpg mr total (mr / mpg) 0 0 (nodesOf stations total)).2,
      round4 (scanAux mpg mr total (mr / mpg) 0 0 (nodesOf stations total)).1,
      round4 (mr / mpg)⟩ := by
    simp only [min_cost_plan] at h
    cases hbg : firstBadGap mr (nodesOf stations total) with
    | some g =>
      rw [hbg] at h
      cases h
    | none =>
      rw [hbg] at h
      injection h with h
      rw [← h]
  subst hres
  refine ⟨?_, ?_, fun hp => filter_sum_le (scanCostLog_nonneg _ _ _ _ _ _ hp),
    fun hp hex => filter_sum_lt (scanCostLog_nonneg _ _ _ _ _ _ hp) hex⟩
  · show round4 (scanAux mpg mr total (mr / mpg) 0 0 (nodesOf stations total)).1 = _
    rw [scanCostLog_total, zero_add]
  · exact scan_stops_costs mpg mr total (mr / mpg) _ 0 0

/-- Witness for the amended C10 at the concrete one-station instance. -/
theorem total_cost_decomposition_witness :
    ∃ res, (min_cost_plan [sampleNode 1 0 3] (2 / 10000) 10 500).1 = some res ∧
      (res.total_cost
          = round4 (((scanCostLog 10 500 (2 / 10000) (500 / 10) 0
              (nodesOf [sampleNode 1 0 3] (2 / 10000))).map Prod.fst).sum) ∧
        res.stops.map (fun e => e.cost)
          = ((scanCostLog 10 500 (2 / 10000) (500 / 10) 0
              (nodesOf [sampleNode 1 0 3] (2 / 10000))).filter (fun x => x.2)).map
                (fun x => round4 x.1)) := by
  have hs : (min_cost_plan [sampleNode 1 0 3] (2 / 10000) 10 500).1.isSome = true := by
    with_unfolding_all rfl
  cases hres : (min_cost_plan [sampleNode 1 0 3] (2 / 10000) 10 500).1 with
  | none =>
    rw [hres] at hs
    cases hs
  | some res =>
    obtain ⟨h1, h2, -, -⟩ :=
      total_cost_decomposition [sampleNode 1 0 3] (2 / 10000) 10 500 res hres
    exact ⟨res, rfl, h1, h2⟩

/-- C10 counterexample: a $3.00 station at mile 0 on a 0.0002-mile route with
`mpg = 10` buys `2e-5` gallons; the single recorded stop's `cost` field rounds
`6e-5` up to `1e-4`, so the pre-rounding total cost (`6e-5`) is strictly LESS
than the sum of the returned stops' `cost` fields (`1e-4`), contradicting the
claim that it is always at least that sum. -/
theorem total_cost_vs_rounded_stops_counterexample :
    ((min_cost_plan [sampleNode 1 0 3] (2 / 10000) 10 500).1.map
        (fun r => (r.stops.map (fun e => e.cost)).sum) = some (1 / 10000)) ∧
    (scanAux 10 500 (2 / 10000) (500 / 10) 0 0
        (nodesOf [sampleNode 1 0 3] (2 / 10000))).1 = 6 / 100000 ∧
    (6 / 100000 : ℚ) < 1 / 10000 := by
  refine ⟨?_, ?_, ?_⟩
  · with_unfolding_all rfl
  · with_unfolding_all rfl
  · norm_num

/-! ## Geometry: cumulative distances (C5, C8) -/

theorem haversine_nonneg (lat1 lon1 lat2 lon2 : ℝ) :
    0 ≤ haversine_miles lat1 lon1 lat2 lon2 :=
  mul_nonneg (by norm_num) (Real.arcsin_nonneg.2 (Real.sqrt_nonneg _))

theorem cumAux_length :
    ∀ (rest : List (ℝ × ℝ)) (prev : ℝ × ℝ) (acc : ℝ),
      (cumAux prev acc rest).length = rest.length
  | [], _, _ => rfl
  | p :: rest, prev, acc => by
    rw [cumAux]
    simp [cumAux_length rest p]

theorem cumAux_chain :
    ∀ (rest : List (ℝ × ℝ)) (prev : ℝ × ℝ) (acc : ℝ),
      (acc :: cumAux prev acc rest).Chain' (fun a b => a ≤ b)
  | [], _, _ => List.chain'_singleton _
  | p :: rest, prev, acc => by
    rw [cumAux]
    refine List.chain'_cons.2 ⟨?_, cumAux_chain rest p _⟩
    have h := haversine_nonneg prev.1 prev.2 p.1 p.2
    linarith

/-- C5 (amended): `cumulative_miles` returns one entry per input point for
every non-empty input; on the empty input it returns the one-element list
`[0.0]`.  In both cases the output length is `max 1 (input length)`. -/
theorem cumulative_miles_length (poly : List (ℝ × ℝ)) :
    (cumulative_miles poly).length = max 1 poly.length := by
  cases poly with
  | nil => rfl
  | cons p rest =>
    rw [cumulative_miles]
    simp only [List.length_cons, cumAux_length]
    omega

/-- C5 counterexample: on the empty input the output has length 1 (it is
`[0.0]`), not the input's length 0; the claimed same-length property fails for
the empty sequence. -/
theorem cumulative_miles_length_counterexample :
    ¬ ((cumulative_miles ([] : List (ℝ × ℝ))).length
        = ([] : List (ℝ × ℝ)).length) := by
  rw [cumulative_miles]
  simp

/-- Witness for the amended C5 at a concrete non-empty input. -/
theorem cumulative_miles_length_witness :
    (cumulative_miles [((0 : ℝ), (0 : ℝ))]).length
      = max 1 [((0 : ℝ), (0 : ℝ))].length :=
  cumulative_miles_length [((0 : ℝ), (0 : ℝ))]

/-- C8: for every non-empty point sequence, the cumulative-distance list
starts at 0 and is non-decreasing — every entry adds a nonnegative
great-circle distance to the previous one. -/
theorem cumulative_miles_monotone (poly : List (ℝ × ℝ)) (hne : poly ≠ []) :
    (cumulative_miles poly).head? = some 0 ∧
    (cumulative_miles poly).Chain' (fun a b => a ≤ b) := by
  cases poly with
  | nil => exact absurd rfl hne
  | cons p rest =>
    rw [cumulative_miles]
    exact ⟨rfl, cumAux_chain rest p 0⟩

/-- Witness for C8 at a concrete one-point route. -/
theorem cumulative_miles_monotone_witness :
    ([((0 : ℝ), (0 : ℝ))] ≠ []) ∧
    ((cumulative_miles [((0 : ℝ), (0 : ℝ))]).head? = some 0 ∧
      (cumulative_miles [((0 : ℝ), (0 : ℝ))]).Chain' (fun a b => a ≤ b)) :=
  ⟨by simp, cumulative_miles_monotone _ (by simp)⟩

/-! ## Polyline decoding (C6) -/

theorem decodeAux_truncated :
    ∀ (cs : List Char) (phase : Bool) (shift result : ℕ) (lat lng : ℤ)
      (c : Char), cs.getLast? = some c → 95 ≤ c.toNat →
      decodeAux phase shift result lat lng cs = none
  | [], _, _, _, _, _, _, hlast, _ => by cases hlast
  | [c0], phase, shift, result, lat, lng, c, hlast, hbit => by
    have hc : c0 = c := by simpa using hlast
    subst hc
    have hb : (32 : ℤ) ≤ (c0.toNat : ℤ) - 63 := by
      have h95 : (95 : ℤ) ≤ (c0.toNat : ℤ) := by exact_mod_cast hbit
      linarith
    rw [decodeAux]
    dsimp only
    rw [if_pos hb]
    rfl
  | c0 :: c1 :: rest, phase, shift, result, lat, lng, c, hlast, hbit => by
    have hlast' : (c1 :: rest).getLast? = some c := by
      rwa [List.getLast?_cons_cons] at hlast
    rw [decodeAux]
    dsimp only
    split
    · exact decodeAux_truncated (c1 :: rest) _ _ _ _ _ c hlast' hbit
    · split
      · exact decodeAux_truncated (c1 :: rest) _ _ _ _ _ c hlast' hbit
      · rw [decodeAux_truncated (c1 :: rest) _ _ _ _ _ c hlast' hbit]
        rfl

/-- C6: decoding the empty string yields the empty point sequence; any input
whose final 5-bit variant group is truncated — its last character still has
the 0x20 continuation bit set, so the group lacks its terminating byte — is a
fatal decode error (`none`).  The model consumes the character list, so a read
past the end of the input is impossible by construction: it returns `none`
exactly where Python raises `IndexError`. -/
theorem decode_polyline_empty_and_truncated :
    decode_polyline "" = some [] ∧
    ∀ (s : String) (c : Char), s.toList.getLast? = some c → 95 ≤ c.toNat →
      decode_polyline s = none := by
  constructor
  · rfl
  · intro s c hlast hbit
    unfold decode_polyline
    cases hs : s.toList with
    | nil =>
      rw [hs] at hlast
      cases hlast
    | cons c0 rest =>
      rw [hs] at hlast
      exact decodeAux_truncated (c0 :: rest) false 0 0 0 0 c hlast hbit

/-- Witness for C6: the one-character string whose only character has the
continuation bit set fails to decode. -/
theorem decode_polyline_truncated_witness :
    ("_".toList.getLast? = some '_') ∧ 95 ≤ '_'.toNat ∧
      decode_polyline "_" = none :=
  ⟨rfl, by decide,
    decode_polyline_empty_and_truncated.2 "_" '_' rfl (by decide)⟩

/-! ## Route projection (C7) -/

theorem haversine_le (lat1 lon1 lat2 lon2 : ℝ) :
    haversine_miles lat1 lon1 lat2 lon2 ≤ 2 * 3958.7613 * (Real.pi / 2) :=
  mul_le_mul_of_nonneg_left (Real.arcsin_le_pi_div_two _) (by norm_num)

theorem stationDist_lt_big (s : Station) (p : ℝ × ℝ) :
    stationDist s p < (10 : ℝ) ^ 18 := by
  have h1 := haversine_le (s.lat : ℝ) (s.lon : ℝ) p.1 p.2
  have h2 := Real.pi_le_four
  unfold stationDist
  nlinarith

theorem bestFold_spec (s : Station) :
    ∀ (poly : List (ℝ × ℝ)) (k : ℕ) (acc : ℕ × ℝ),
      ((bestFold s k poly acc).2 ≤ acc.2 ∧
        ∀ j (hj : j < poly.length),
          (bestFold s k poly acc).2 ≤ stationDist s (poly.get ⟨j, hj⟩)) ∧
      (bestFold s k poly acc = acc ∨
        ∃ j, ∃ hj : j < poly.length,
          (bestFold s k poly acc).1 = k + j ∧
          (bestFold s k poly acc).2 = stationDist s (poly.get ⟨j, hj⟩) ∧
          stationDist s (poly.get ⟨j, hj⟩) < acc.2 ∧
          ∀ j' (hj' : j' < j), (bestFold s k poly acc).2
            < stationDist s (poly.get ⟨j', lt_trans hj' hj⟩))
  | [], k, acc => by
    refine ⟨⟨le_refl _, ?_⟩, Or.inl rfl⟩
    intro j hj
    cases hj
  | p :: rest, k, acc => by
    have hstep : bestFold s k (p :: rest) acc
        = bestFold s (k + 1) rest (bestStep s acc (k, p)) := by
      rw [bestFold, List.enumFrom_cons, List.foldl_cons]
      rfl
    obtain ⟨⟨ih1, ih2⟩, ih3⟩ := bestFold_spec s rest (k + 1) (bestStep s acc (k, p))
    by_cases h : stationDist s p < acc.2
    · have hacc : bestStep s acc (k, p) = (k, stationDist s p) := if_pos h
      rw [hacc] at ih1 ih2 ih3
      constructor
      · constructor
        · rw [hstep, hacc]
          exact le_trans ih1 (le_of_lt h)
        · intro j hj
          cases j with
          | zero =>
            rw [hstep, hacc]
            exact ih1
          | succ j =>
            rw [hstep, hacc]
            exact ih2 j (Nat.succ_lt_succ_iff.1 hj)
      · rcases ih3 with heq | ⟨j, hj, h1, h2, h3, h4⟩
        · refine Or.inr ⟨0, Nat.succ_pos _, ?_, ?_, h, ?_⟩
          · rw [hstep, hacc, heq]
            rfl
          · rw [hstep, hacc, heq]
            rfl
          · intro j' hj'
            cases hj'
        · refine Or.inr ⟨j + 1, Nat.succ_lt_succ hj, ?_, ?_, lt_trans h3 h, ?_⟩
          · rw [hstep, hacc, h1]
            omega
          · rw [hstep, hacc]
            exact h2
          · intro j' hj'
            cases j' with
            | zero =>
              rw [hstep, hacc, h2]
              exact h3
            | succ j' =>
              rw [hstep, hacc]
              exact h4 j' (Nat.succ_lt_succ_iff.1 hj')
    · have hacc : bestStep s acc (k, p) = acc := if_neg h
      rw [hacc] at ih1 ih2 ih3
      have hple : acc.2 ≤ stationDist s p := not_lt.1 h
      constructor
      · constructor
        · rw [hstep, hacc]
          exact ih1
        · intro j hj
          cases j with
          | zero =>
            rw [hstep, hacc]
            exact le_trans ih1 hple
          | succ j =>
            rw [hstep, hacc]
            exact ih2 j (Nat.succ_lt_succ_iff.1 hj)
      · rcases ih3 with heq | ⟨j, hj, h1, h2, h3, h4⟩
        · refine Or.inl ?_
          rw [hstep, hacc, heq]
        · refine Or.inr ⟨j + 1, Nat.succ_lt_succ hj, ?_, ?_, h3, ?_⟩
          · rw [hstep, hacc, h1]
            omega
          · rw [hstep, hacc]
            exact h2
          · intro j' hj'
            cases j' with
            | zero =>
              rw [hstep, hacc, h2]
              exact lt_of_lt_of_le h3 hple
            | succ j' =>
              rw [hstep, hacc]
              exact h4 j' (Nat.succ_lt_succ_iff.1 hj')

theorem bestVertex_spec (s : Station) (poly : List (ℝ × ℝ)) (hne : poly ≠ []) :
    ∃ i, ∃ hi : i < poly.length,
      bestVertex s poly = (i, stationDist s (poly.get ⟨i, hi⟩)) ∧
      (∀ j (hj : j < poly.length),
        stationDist s (poly.get ⟨i, hi⟩) ≤ stationDist s (poly.get ⟨j, hj⟩)) ∧
      (∀ j (hj : j < i), stationDist s (poly.get ⟨i, hi⟩)
        < stationDist s (poly.get ⟨j, lt_trans hj hi⟩)) := by
  have h0 : 0 < poly.length := List.length_pos.2 hne
  have hbv : bestVertex s poly = bestFold s 0 poly (0, (10 : ℝ) ^ 18) := rfl
  obtain ⟨⟨ih1, ih2⟩, ih3⟩ := bestFold_spec s poly 0 (0, (10 : ℝ) ^ 18)
  rcases ih3 with heq | ⟨j, hj, h1, h2, h3, h4⟩
  · exfalso
    have hle := ih2 0 h0
    rw [heq] at hle
    exact absurd (lt_of_le_of_lt hle (stationDist_lt_big s _)) (by norm_num)
  · refine ⟨j, hj, ?_, ?_, ?_⟩
    · rw [hbv]
      have : bestFold s 0 poly (0, (10 : ℝ) ^ 18)
          = ((bestFold s 0 poly (0, (10 : ℝ) ^ 18)).1,
            (bestFold s 0 poly (0, (10 : ℝ) ^ 18)).2) := rfl
      rw [this, h1, h2, Nat.zero_add]
    · intro j' hj'
      have := ih2 j' hj'
      rw [h2] at this
      exact this
    · intro j' hj'
      have := h4 j' hj'
      rw [h2] at this
      exact this

/-- C7: `attach_route_miles` annotates every candidate with
`route_miles = cum[bestIndex]` and `offroute_miles` = the distance to vertex
`bestIndex`, where `bestIndex` is the lowest vertex index attaining the
minimum great-circle distance to the station, and stable-sorts the result
ascending by `route_miles` (ties keep the annotated input order). -/
theorem attach_route_miles_spec (stops : List Station) (poly : List (ℝ × ℝ))
    (cum : List ℝ) (hne : poly ≠ []) (hlen : cum.length = poly.length) :
    attach_route_miles stops poly cum
        = sortByKey (fun e => e.route_miles) (stops.map (annotate poly cum)) ∧
    (attach_route_miles stops poly cum).Pairwise
      (fun a b => a.route_miles ≤ b.route_miles) ∧
    (attach_route_miles stops poly cum).Perm (stops.map (annotate poly cum)) ∧
    (∀ v : ℝ, (attach_route_miles stops poly cum).filter
        (fun e => decide (e.route_miles = v))
      = (stops.map (annotate poly cum)).filter
          (fun e => decide (e.route_miles = v))) ∧
    (∀ s ∈ stops, ∃ i, ∃ hi : i < poly.length,
      (annotate poly cum s).fs = s ∧
      (annotate poly cum s).route_miles = cum.get ⟨i, by rw [hlen]; exact hi⟩ ∧
      (annotate poly cum s).offroute_miles = stationDist s (poly.get ⟨i, hi⟩) ∧
      (∀ j (hj : j < poly.length),
        stationDist s (poly.get ⟨i, hi⟩) ≤ stationDist s (poly.get ⟨j, hj⟩)) ∧
      (∀ j (hj : j < i), stationDist s (poly.get ⟨i, hi⟩)
        < stationDist s (poly.get ⟨j, lt_trans hj hi⟩))) := by
  refine ⟨rfl, sortByKey_pairwise _ _, sortByKey_perm _ _,
    fun v => sortByKey_filter _ v _, ?_⟩
  intro s hs
  obtain ⟨i, hi, hbv, hmin, hfirst⟩ := bestVertex_spec s poly hne
  refine ⟨i, hi, rfl, ?_, ?_, hmin, hfirst⟩
  · show cum.getD (bestVertex s poly).1 0 = _
    rw [hbv]
    exact List.getD_eq_get cum 0 (by rw [hlen]; exact hi)
  · show (bestVertex s poly).2 = _
    rw [hbv]

/-- Witness for C7 at a concrete one-vertex route with matching cumulative
list. -/
theorem attach_route_miles_spec_witness :
    ([((0 : ℝ), (0 : ℝ))] ≠ []) ∧
    ([(0 : ℝ)].length = [((0 : ℝ), (0 : ℝ))].length) ∧
    ((attach_route_miles [sampleStation 1 3] [((0 : ℝ), (0 : ℝ))] [(0 : ℝ)]).Pairwise
      (fun a b => a.route_miles ≤ b.route_miles)) :=
  ⟨by simp, rfl,
    (attach_route_miles_spec [sampleStation 1 3] [((0 : ℝ), (0 : ℝ))] [(0 : ℝ)]
      (by simp) rfl).2.1⟩

end FuelRoute
